import Mathlib

/-!
Verification of the core data-plane components of the US census map
repository: the sliding-window rate limiter, the localStorage-backed cache
store, the retry/backoff controllers, and the ZIP-code index with its
grid-based radius search.  Each JavaScript function is embedded as a pure
Lean function; times are integer milliseconds, coordinates and distances
are rationals, and the floating-point trigonometry of the source is
abstracted into explicit function parameters.
-/

namespace CensusMap

/-! ## Rate limiter (ACSAPIService.enforceRateLimit / fetchBatchFromAPI)

The service keeps `requestTimestamps : number[]`.  `enforceRateLimit`
prunes entries older than 60 000 ms, admits when the pruned count is
below `requestsPerMinute`, and otherwise sleeps and re-evaluates
recursively.  After admission, `fetchBatchFromAPI` pushes the current
time onto the list.  The recursive sleep loop is modelled by a schedule
of wake-up times: each element is the clock value at one evaluation of
the admission check. -/

/-- Model of `this.requestTimestamps.filter(ts => ts > oneMinuteAgo)`
with `oneMinuteAgo = now - 60000`. -/
def pruneTimestamps (now : Int) (ts : List Int) : List Int :=
  ts.filter (fun t => now - 60000 < t)

/-- Model of `this.requestTimestamps.push(startTime)` performed by
`fetchBatchFromAPI` right after admission. -/
def recordRequest (now : Int) (ts : List Int) : List Int :=
  ts ++ [now]

/-- Model of the wait computation
`60000 - (now - oldest) + 100` on the non-admission path. -/
def rateLimitWait (now : Int) (ts : List Int) : Int :=
  60000 - (now - (ts.headD 0)) + 100

/-- Model of `enforceRateLimit`: at each wake-up time in `sched` the
list is pruned and the admission check `length >= requestsPerMinute` is
evaluated; on success the function returns (yielding the admission time
and the pruned list the service now stores), otherwise it sleeps and
re-evaluates at the next scheduled time.  `none` means the schedule ran
out while still waiting. -/
def enforceRateLimit (ceiling : Nat) : List Int → List Int → Option (Int × List Int)
  | [], _ => none
  | now :: later, ts =>
    let p := pruneTimestamps now ts
    if p.length < ceiling then some (now, p)
    else enforceRateLimit ceiling later p

/-! ## Cache store sweep (ACSAPIService.cleanCache)

localStorage is modelled as an ordered association list; the JSON value
of an entry is abstracted to its parse outcome: `corrupt` when
`JSON.parse` throws, otherwise the `expiry` and `metadata.cachedAt`
numbers (a falsy/absent `expiry` is represented by `0`, the same for
`cachedAt`, matching the `cached.expiry &&` guard and the
`cached.metadata?.cachedAt || 0` fallback). -/

/-- Model of JavaScript `s.startsWith(pfx)`: the characters of `pfx`
are an initial segment of the characters of `s`. -/
def strStartsWith (s pfx : String) : Bool :=
  pfx.data.isPrefixOf s.data

inductive StoredVal where
  | corrupt : StoredVal
  | entry : Int → Int → StoredVal
deriving DecidableEq

/-- Expiry instant of a stored value (`0` stands for falsy/absent). -/
def StoredVal.expiry : StoredVal → Int
  | .corrupt => 0
  | .entry e _ => e

/-- Recorded cache-write instant of a stored value (`0` for corrupt or
absent metadata, matching `new Date(cached.metadata?.cachedAt || 0)`). -/
def StoredVal.cachedAt : StoredVal → Int
  | .corrupt => 0
  | .entry _ c => c

/-- Whether `cleanCache` deletes this value at time `now`:
corrupt entries always, otherwise when `cached.expiry && now > cached.expiry`. -/
def sweepRemoves (now : Int) : StoredVal → Bool
  | .corrupt => true
  | .entry e _ => e != 0 && e < now

/-- Model of the `for (let i = 0; i < localStorage.length; i++)` loop of
`cleanCache`, including the index semantics of `localStorage.key(i)`
under concurrent `removeItem`: removing the entry at index `i` shifts
all later entries down by one while the loop still increments `i`. -/
def cleanLoop (pfx : String) (now : Int) (store : List (String × StoredVal)) (i : Nat) :
    List (String × StoredVal) :=
  if hlt : i < store.length then
    let kv := store[i]
    if strStartsWith kv.1 pfx then
      if sweepRemoves now kv.2 then
        cleanLoop pfx now (store.eraseIdx i) (i + 1)
      else
        cleanLoop pfx now store (i + 1)
    else
      cleanLoop pfx now store (i + 1)
  else store
termination_by store.length - i
decreasing_by
  · have hl : (store.eraseIdx i).length = store.length - 1 :=
      List.length_eraseIdx_of_lt hlt
    omega
  · omega

/-- Model of `ACSAPIService.cleanCache`. -/
def cleanCache (pfx : String) (now : Int) (store : List (String × StoredVal)) :
    List (String × StoredVal) :=
  cleanLoop pfx now store 0

/-! ## Retry controllers

`ACSAPIService.fetchBatchWithRetry` and `CensusDataFetcher.fetchWithRetry`
are modelled as trace-producing functions: the trace records each
backoff suspension and each invocation of the wrapped operation (the
operation of the batch controller includes its rate-limit admission and
the network call).  The operation is a function from the attempt number
to a success value or an error.  The `for` loops run the body once per
attempt from `1` to `maxRetries`, which the embedding counts with a
fuel argument equal to the number of remaining iterations. -/

inductive REvent where
  | sleep : Nat → REvent
  | invoke : Nat → REvent
deriving DecidableEq

/-- Number of operation invocations recorded in a trace. -/
def invokeCount (tr : List REvent) : Nat :=
  (tr.filter fun e => match e with | .invoke _ => true | .sleep _ => false).length

/-- Loop body of `ACSAPIService.fetchBatchWithRetry`: before every
attempt after the first it sleeps `Math.pow(2, attempt - 1) * 1000` ms
(no cap), then invokes the operation; a failure at
`attempt === maxRetries` rethrows the error, otherwise the loop
continues with the error remembered as `lastError`.  Exhausted fuel
corresponds to falling out of the loop, which rethrows `lastError`
(`undefined`, i.e. `none`, when the loop never ran). -/
def fetchBatchLoop (op : Nat → Except ε α) (maxRetries : Nat) :
    Nat → Nat → Option ε → List REvent × Except (Option ε) α
  | 0, _, le => ([], .error le)
  | fuel + 1, attempt, _le =>
    let pre : List REvent :=
      if 1 < attempt then [.sleep (2 ^ (attempt - 1) * 1000)] else []
    match op attempt with
    | .ok v => (pre ++ [.invoke attempt], .ok v)
    | .error e =>
      if attempt = maxRetries then (pre ++ [.invoke attempt], .error (some e))
      else
        let r := fetchBatchLoop op maxRetries fuel (attempt + 1) (some e)
        (pre ++ .invoke attempt :: r.1, r.2)

/-- Model of `ACSAPIService.fetchBatchWithRetry`. -/
def fetchBatchWithRetry (maxRetries : Nat) (op : Nat → Except ε α) :
    List REvent × Except (Option ε) α :=
  fetchBatchLoop op maxRetries maxRetries 1 none

/-- Loop body of `CensusDataFetcher.fetchWithRetry` (part_000): invoke
first; on failure at the final attempt rethrow, otherwise sleep
`Math.min(1000 * Math.pow(2, attempt), 10000)` ms and continue.  When
the loop never runs the function returns `undefined`, modelled as
`.ok none`. -/
def fetchRetryLoop (op : Nat → Except ε α) (maxRetries : Nat) :
    Nat → Nat → List REvent × Except ε (Option α)
  | 0, _ => ([], .ok none)
  | fuel + 1, attempt =>
    match op attempt with
    | .ok v => ([.invoke attempt], .ok (some v))
    | .error e =>
      if attempt = maxRetries then ([.invoke attempt], .error e)
      else
        let d := min (1000 * 2 ^ attempt) 10000
        let r := fetchRetryLoop op maxRetries fuel (attempt + 1)
        (.invoke attempt :: .sleep d :: r.1, r.2)

/-- Model of `CensusDataFetcher.fetchWithRetry`. -/
def fetchWithRetry (maxRetries : Nat) (op : Nat → Except ε α) :
    List REvent × Except ε (Option α) :=
  fetchRetryLoop op maxRetries maxRetries 1

/-! ## Cache write with quota eviction (ACSAPIService.cacheData)

`cacheData` wraps the localStorage write in try/catch; on a
QuotaExceededError it calls `clearOldestCacheEntries(20)` and schedules
`this.cacheData(...)` again via `setTimeout`, which re-runs the whole
policy.  No error ever propagates to the caller.  The write outcome is
abstracted into an oracle `q : Nat → Bool` giving `true` when the
write attempt with that number hits the quota; the trace records write
attempts and evictions, and fuel bounds how many scheduled retries are
unrolled. -/

inductive CEvent where
  | write : Nat → CEvent
  | evict : Nat → CEvent
deriving DecidableEq

/-- Number of write attempts in a cacheData trace. -/
def writeCount (tr : List CEvent) : Nat :=
  (tr.filter fun e => match e with | .write _ => true | .evict _ => false).length

/-- Number of evictions in a cacheData trace. -/
def evictCount (tr : List CEvent) : Nat :=
  (tr.filter fun e => match e with | .evict _ => true | .write _ => false).length

/-- Model of the `cacheData` retry chain: attempt the write; on quota
failure evict 20 oldest entries and re-run `cacheData` (the scheduled
call applies the identical policy to the next attempt). -/
def cacheDataModel (q : Nat → Bool) : Nat → Nat → List CEvent
  | 0, _ => []
  | fuel + 1, attempt =>
    if q attempt then
      CEvent.write attempt :: CEvent.evict 20 :: cacheDataModel q fuel (attempt + 1)
    else
      [CEvent.write attempt]

/-- The namespaced entries of the store paired with the cache-write
instant `clearOldestCacheEntries` reads from their metadata
(`new Date(cached.metadata?.cachedAt || 0).getTime()`, `0` for corrupt
entries). -/
def agedEntries (pfx : String) (store : List (String × StoredVal)) :
    List (String × Int) :=
  (store.filter fun kv => strStartsWith kv.1 pfx).map fun kv => (kv.1, kv.2.cachedAt)

/-- The namespaced entries sorted ascending by recorded cache-write
instant, as by `entries.sort((a, b) => a.cachedAt - b.cachedAt)`
(a stable sort, as in modern JavaScript engines). -/
def oldestSorted (pfx : String) (store : List (String × StoredVal)) :
    List (String × Int) :=
  (agedEntries pfx store).mergeSort (fun a b => decide (a.2 ≤ b.2))

/-- Model of `ACSAPIService.clearOldestCacheEntries`: remove the first
`count` entries of the age-sorted namespaced entry list. -/
def clearOldestCacheEntries (pfx : String) (count : Nat)
    (store : List (String × StoredVal)) : List (String × StoredVal) :=
  let doomed := ((oldestSorted pfx store).take count).map Prod.fst
  store.filter fun kv => !(doomed.contains kv.1)

/-! ## Cache keys and the variables array (ACSAPIService.getCacheKey)

`getCacheKey` calls `variables.sort()` — JavaScript's in-place
lexicographic string sort — before hashing, so the caller's array is
left sorted.  Mutation is embedded by returning the array contents
after the call alongside the key. -/

/-- Model of the 32-bit signed wrap-around produced by JavaScript's
`hash & hash` and `<<` coercions. -/
def jsInt32 (n : Int) : Int :=
  (n + 2 ^ 31) % 2 ^ 32 - 2 ^ 31

/-- One character step of `ACSAPIService.hashString`:
`hash = ((hash << 5) - hash) + char; hash = hash & hash`. -/
def hashStep (h : Int) (c : Nat) : Int :=
  jsInt32 (jsInt32 (h * 32) - h + c)

/-- Model of `Math.abs(hash).toString(16).padStart(8, '0')`. -/
def toHexPad8 (n : Nat) : String :=
  let hex := Nat.toDigits 16 n
  ⟨List.replicate (8 - hex.length) '0' ++ hex⟩

/-- Model of `ACSAPIService.hashString`. -/
def hashString (s : String) : String :=
  toHexPad8 (s.data.foldl (fun h c => hashStep h c.toNat) 0).natAbs

/-- JavaScript's default in-place `Array.prototype.sort()` on strings:
lexicographic comparison of the character sequences. -/
def sortLex (l : List String) : List String :=
  l.mergeSort (fun a b => decide (a ≤ b))

/-- Model of `ACSAPIService.getCacheKey`.  The second component is the
contents of the caller's `variables` array after the call (the in-place
`variables.sort()`). -/
def getCacheKey (pfx zip : String) (varNames : List String) :
    String × List String :=
  let sortedVars := sortLex varNames
  (pfx ++ zip ++ "_" ++ hashString (String.intercalate "," sortedVars), sortedVars)

/-- The contents of the caller's `variables` array after
`fetchDataForZips(zipCodes, variables, ...)` runs its cache-check loop:
the input validation rejects empty arrays (`none`), and otherwise
`getFromCache(zip, variables)` — hence `getCacheKey` — runs once per
requested ZIP, each call leaving the array sorted. -/
def fetchVarsAfterCacheCheck (pfx : String) (zipCodes varNames : List String) :
    Option (List String) :=
  if zipCodes.isEmpty then none
  else if varNames.isEmpty then none
  else some (zipCodes.foldl (fun vs z => (getCacheKey pfx z vs).2) varNames)

/-! ## ZIP code index (ZIPCodeIndex, part_001)

JavaScript `Map`s are modelled as association lists in insertion
order (`Map.set` updates in place or appends), `Set`s as duplicate-free
lists in insertion order.  Coordinates are rationals; the
floating-point Haversine block and `Math.cos` inside `searchByRadius`
are abstracted into function parameters `dist` and `cosd`. -/

structure ZipRecord where
  zip : String
  lat : Option Rat
  lng : Option Rat
  city : String
  state_id : String
  county_fips : String
deriving DecidableEq

structure Stub where
  zip : String
  lat : Rat
  lng : Rat
deriving DecidableEq

/-- Association-list model of `Map.prototype.get`. -/
def mapGet {κ ν : Type} [DecidableEq κ] (k : κ) : List (κ × ν) → Option ν
  | [] => none
  | kv :: rest => if kv.1 = k then some kv.2 else mapGet k rest

/-- Association-list model of `Map.prototype.set`: replace in place,
or append when the key is new. -/
def mapSet {κ ν : Type} [DecidableEq κ] (k : κ) (v : ν) :
    List (κ × ν) → List (κ × ν)
  | [] => [(k, v)]
  | kv :: rest => if kv.1 = k then (k, v) :: rest else kv :: mapSet k v rest

/-- Model of `Set.prototype.add` on a string set in insertion order. -/
def setAdd (z : String) (s : List String) : List String :=
  if z ∈ s then s else s ++ [z]

/-- The `if (!m.has(k)) m.set(k, new Set()); m.get(k).add(z)` pattern of
`indexRecord`. -/
def addToSetMap {κ : Type} [DecidableEq κ] (k : κ) (z : String)
    (m : List (κ × List String)) : List (κ × List String) :=
  match mapGet k m with
  | some s => mapSet k (setAdd z s) m
  | none => m ++ [(k, setAdd z [])]

structure ZIPIndex where
  zips : List (String × ZipRecord)
  stateIndex : List (String × List String)
  cityIndex : List (String × List String)
  countyIndex : List (String × List String)
  spatial : List ((Int × Int) × List Stub)

def emptyIndex : ZIPIndex :=
  ⟨[], [], [], [], []⟩

/-- ASCII model of JavaScript `String.prototype.toUpperCase`. -/
def jsToUpperCase (s : String) : String :=
  ⟨s.data.map Char.toUpper⟩

/-- ASCII model of JavaScript `String.prototype.toLowerCase`. -/
def jsToLowerCase (s : String) : String :=
  ⟨s.data.map Char.toLower⟩

/-- Model of `zip.padStart(5, '0')`. -/
def padStart5 (s : String) : String :=
  ⟨List.replicate (5 - s.data.length) '0' ++ s.data⟩

/-- Model of `ZIPCodeIndex.indexRecord`: store the record under its ZIP
key (last write wins) and add the ZIP to the state, city and county
sets when the respective field is truthy (nonempty). -/
def indexRecord (idx : ZIPIndex) (r : ZipRecord) : ZIPIndex :=
  { idx with
    zips := mapSet r.zip r idx.zips
    stateIndex :=
      if r.state_id ≠ "" then addToSetMap r.state_id r.zip idx.stateIndex
      else idx.stateIndex
    cityIndex :=
      if r.city ≠ "" then
        addToSetMap (jsToLowerCase r.city ++ "," ++ r.state_id) r.zip idx.cityIndex
      else idx.cityIndex
    countyIndex :=
      if r.county_fips ≠ "" then addToSetMap r.county_fips r.zip idx.countyIndex
      else idx.countyIndex }

/-- Model of `ZIPCodeIndex.get`: left-zero-pad the query to five
characters, then look it up (`null` for a miss). -/
def ZIPIndex.get (idx : ZIPIndex) (zip : String) : Option ZipRecord :=
  mapGet (padStart5 zip) idx.zips

/-- The `for (const zip of zipSet)` loop of `getByState`: push
`this.get(zip)` and break once `results.length >= limit`. -/
def getByStateGo (idx : ZIPIndex) (limit : Nat) :
    List String → List (Option ZipRecord) → List (Option ZipRecord)
  | [], acc => acc
  | z :: zs, acc =>
    let acc' := acc ++ [idx.get z]
    if limit ≤ acc'.length then acc' else getByStateGo idx limit zs acc'

/-- Model of `ZIPCodeIndex.getByState`: the query is uppercased, the
indexed state keys are used as stored. -/
def getByState (idx : ZIPIndex) (stateId : String) (limit : Nat) :
    List (Option ZipRecord) :=
  getByStateGo idx limit ((mapGet (jsToUpperCase stateId) idx.stateIndex).getD []) []

/-- Loading the same record `n` times into an initially empty index. -/
def loadTimes (r : ZipRecord) : Nat → ZIPIndex
  | 0 => emptyIndex
  | n + 1 => indexRecord (loadTimes r n) r

/-! ## Radius search (ZIPCodeIndex.searchByRadius)

The scan carries the query configuration: the abstracted Haversine
`dist` (a function of the query point and the stub point), the bounding
box, the radius and the limit.  The two nested grid loops are flattened
into the row-major list of candidate grid keys; `Sum.inl` is the early
`return` taken when the limit is reached, `Sum.inr` continues with the
accumulated results. -/

structure RadiusHit where
  record : ZipRecord
  distance : Rat
deriving DecidableEq

/-- The `results.sort((a, b) => a.distance - b.distance)` applied on
both return paths of `searchByRadius`. -/
def sortHits (l : List RadiusHit) : List RadiusHit :=
  l.mergeSort (fun a b => decide (a.distance ≤ b.distance))

structure ScanCfg where
  dist : Rat → Rat → Rat → Rat → Rat
  lat : Rat
  lng : Rat
  radiusKm : Rat
  limit : Nat
  minLat : Rat
  maxLat : Rat
  minLng : Rat
  maxLng : Rat

/-- The `for (const cell of cells)` loop over the stubs of one grid
cell: bounding-box prefilter, exact distance test, push of the spread
record with its distance, and the early `return` once
`results.length >= limit` (checked whenever the distance test passed,
even when the record lookup returned `null`). -/
def scanStubs (idx : ZIPIndex) (cfg : ScanCfg) :
    List Stub → List RadiusHit → List RadiusHit ⊕ List RadiusHit
  | [], acc => Sum.inr acc
  | s :: rest, acc =>
    if cfg.minLat ≤ s.lat ∧ s.lat ≤ cfg.maxLat ∧
       cfg.minLng ≤ s.lng ∧ s.lng ≤ cfg.maxLng then
      let d := cfg.dist cfg.lat cfg.lng s.lat s.lng
      if d ≤ cfg.radiusKm then
        let acc' :=
          match idx.get s.zip with
          | some r => acc ++ [⟨r, d⟩]
          | none => acc
        if cfg.limit ≤ acc'.length then Sum.inl (sortHits acc')
        else scanStubs idx cfg rest acc'
      else scanStubs idx cfg rest acc
    else scanStubs idx cfg rest acc

/-- The nested `for (latGrid ...) for (lngGrid ...)` loops, flattened
over the row-major candidate grid keys; missing cells contribute `[]`.
The final return path sorts by distance. -/
def scanCells (idx : ZIPIndex) (cfg : ScanCfg) :
    List (Int × Int) → List RadiusHit → List RadiusHit
  | [], acc => sortHits acc
  | g :: gs, acc =>
    match scanStubs idx cfg ((mapGet g idx.spatial).getD []) acc with
    | Sum.inl done => done
    | Sum.inr acc' => scanCells idx cfg gs acc'

/-- Integer range `a, a+1, ..., b` as enumerated by a JavaScript
`for (let i = a; i <= b; i++)` loop. -/
def intRange (a b : Int) : List Int :=
  (List.range (b + 1 - a).toNat).map (fun k => a + (k : Int))

/-- Model of `ZIPCodeIndex.searchByRadius`.  `dist` abstracts the
floating-point Haversine block (a function of the query point and the
stub point) and `cosd` abstracts `Math.cos(lat * Math.PI / 180)`. -/
def searchByRadius (idx : ZIPIndex) (dist : Rat → Rat → Rat → Rat → Rat)
    (cosd : Rat → Rat) (lat lng radiusKm : Rat) (limit : Nat) : List RadiusHit :=
  let latDelta := radiusKm / 111.32
  let lngDelta := radiusKm / (111.32 * cosd lat)
  let minLat := lat - latDelta
  let maxLat := lat + latDelta
  let minLng := lng - lngDelta
  let maxLng := lng + lngDelta
  let minLatGrid := Rat.floor (minLat / 0.5)
  let maxLatGrid := Rat.floor (maxLat / 0.5)
  let minLngGrid := Rat.floor (minLng / 0.5)
  let maxLngGrid := Rat.floor (maxLng / 0.5)
  let cfg : ScanCfg := ⟨dist, lat, lng, radiusKm, limit, minLat, maxLat, minLng, maxLng⟩
  let grids := (intRange minLatGrid maxLatGrid).flatMap fun la =>
    (intRange minLngGrid maxLngGrid).map fun ln => (la, ln)
  scanCells idx cfg grids []

/-- All stubs stored in the spatial index, across all grid cells. -/
def allStubs (idx : ZIPIndex) : List Stub :=
  (idx.spatial.map Prod.snd).flatten

/-- The payload of a scan step, whether it early-returned (`inl`) or is
still accumulating (`inr`). -/
def scanOut : List RadiusHit ⊕ List RadiusHit → List RadiusHit
  | Sum.inl l => l
  | Sum.inr l => l

/-- Soundness property of a returned hit: its attached distance passed
the radius test and is the distance the scan computed for one of the
indexed stubs, whose record lookup produced the returned record. -/
def HitOk (idx : ZIPIndex) (cfg : ScanCfg) (h : RadiusHit) : Prop :=
  h.distance ≤ cfg.radiusKm ∧
  ∃ s ∈ allStubs idx, h.distance = cfg.dist cfg.lat cfg.lng s.lat s.lng ∧
    idx.get s.zip = some h.record

/-- Concrete stub at the origin, used to instantiate the quantified
theorems on explicit inputs. -/
def demoStub : Stub :=
  ⟨"00001", 0, 0⟩

/-- Concrete record for the concrete instantiations. -/
def demoRecord : ZipRecord :=
  ⟨"00001", some 0, some 0, "Demo", "NY", "1"⟩

/-- Concrete one-record index whose spatial grid holds `demoStub` in
cell (0, 0). -/
def demoIndex : ZIPIndex :=
  ⟨[("00001", demoRecord)], [("NY", ["00001"])], [], [], [((0, 0), [demoStub])]⟩

/-- Concrete stand-in for the abstracted floating-point distance
parameter in the explicit instantiations: the taxicab distance, which
like the Haversine distance is nonnegative and vanishes exactly at the
query point. -/
def absDist (qlat qlng slat slng : Rat) : Rat :=
  |slat - qlat| + |slng - qlng|

end CensusMap

namespace CensusMap

/-- Helper: a successful return of the admission loop always comes out
of the admitted branch, so the returned list is pruned at the admission
time and its length is strictly below the ceiling. -/
theorem enforceRateLimit_spec (ceiling : Nat) :
    ∀ (sched ts : List Int) (tA : Int) (p : List Int),
      enforceRateLimit ceiling sched ts = some (tA, p) →
      p.length < ceiling ∧ ∀ t ∈ p, tA - 60000 < t := by
  intro sched
  induction sched with
  | nil => intro ts tA p h; simp [enforceRateLimit] at h
  | cons now later ih =>
    intro ts tA p h
    simp only [enforceRateLimit] at h
    by_cases hc : (pruneTimestamps now ts).length < ceiling
    · rw [if_pos hc] at h
      simp only [Option.some.injEq, Prod.mk.injEq] at h
      obtain ⟨h1, h2⟩ := h
      subst h1
      subst h2
      refine ⟨hc, ?_⟩
      intro t ht
      have := List.mem_filter.mp ht
      simpa using this.2
    · rw [if_neg hc] at h
      exact ih (pruneTimestamps now ts) tA p h

/-- C1: whenever the admission loop returns, recording the admitted
request keeps the stored timestamp list (all of whose entries lie in the
trailing 60 second window of the admission instant) at or below the
per-minute ceiling; and when the post-prune count is below the ceiling
the loop admits immediately at the first scheduled evaluation,
returning the pruned list that the push then extends by the current
time. -/
theorem rateLimiter_admission_invariant (ceiling : Nat) (sched ts : List Int)
    (tA : Int) (p : List Int)
    (h : enforceRateLimit ceiling sched ts = some (tA, p)) :
    (recordRequest tA p).length ≤ ceiling ∧
    (∀ t ∈ recordRequest tA p, tA - 60000 < t) ∧
    (∀ (now : Int) (later ts0 : List Int),
        (pruneTimestamps now ts0).length < ceiling →
        enforceRateLimit ceiling (now :: later) ts0 =
          some (now, pruneTimestamps now ts0)) := by
  obtain ⟨hlen, hmem⟩ := enforceRateLimit_spec ceiling sched ts tA p h
  refine ⟨?_, ?_, ?_⟩
  · simp only [recordRequest, List.length_append, List.length_cons, List.length_nil]
    omega
  · intro t ht
    rcases List.mem_append.mp ht with h1 | h2
    · exact hmem t h1
    · have : t = tA := by simpa using h2
      subst this
      omega
  · intro now later ts0 hc
    simp [enforceRateLimit, hc]

/-- Witness for C1 at a concrete input: with ceiling 2, one stored
timestamp 90000 and an admission check at time 100000, the loop admits
at once and the recorded list stays within the ceiling. -/
theorem rateLimiter_admission_invariant_witness :
    (recordRequest 100000 [90000]).length ≤ 2 ∧
    (∀ t ∈ recordRequest 100000 [90000], (100000 : Int) - 60000 < t) ∧
    (∀ (now : Int) (later ts0 : List Int),
        (pruneTimestamps now ts0).length < 2 →
        enforceRateLimit 2 (now :: later) ts0 =
          some (now, pruneTimestamps now ts0)) :=
  rateLimiter_admission_invariant 2 [100000] [90000] 100000 [90000] (by decide)

/-- C2: `cleanCache` iterates localStorage indices upward while removing,
so of two adjacent expired entries under the namespace the second is
skipped: one sweep of the two-entry store removes only the first entry,
and only a second sweep empties the store, contradicting both
"removes all expired entries" and the idempotence of the sweep. -/
theorem cleanCache_skips_adjacent_expired :
    cleanCache "p" 10 [("p1", StoredVal.entry 5 0), ("p2", StoredVal.entry 5 0)] =
      [("p2", StoredVal.entry 5 0)] ∧
    cleanCache "p" 10 [("p2", StoredVal.entry 5 0)] = [] := by
  constructor
  · simp [cleanCache, cleanLoop, sweepRemoves, strStartsWith]
  · simp [cleanCache, cleanLoop, sweepRemoves, strStartsWith]

/-- Helper: invocation counts add over trace concatenation. -/
theorem invokeCount_append (l₁ l₂ : List REvent) :
    invokeCount (l₁ ++ l₂) = invokeCount l₁ + invokeCount l₂ := by
  simp [invokeCount, List.filter_append]

/-- Helper: the backoff prefix of an attempt contains no invocation. -/
theorem invokeCount_pre (b : Nat) (d : Nat) :
    invokeCount (if 1 < b then [REvent.sleep d] else []) = 0 := by
  split <;> simp [invokeCount]

/-- Helper: a single invocation event counts once. -/
theorem invokeCount_invoke (n : Nat) : invokeCount [REvent.invoke n] = 1 := rfl

/-- Helper: an invocation event at the head of a trace adds one. -/
theorem invokeCount_cons_invoke (n : Nat) (l : List REvent) :
    invokeCount (REvent.invoke n :: l) = invokeCount l + 1 := by
  simp [invokeCount]

/-- Helper: unfolding of the batch retry loop on a successful attempt. -/
theorem fetchBatchLoop_succ_ok {ε α : Type} {op : Nat → Except ε α} {m f b : Nat}
    {le : Option ε} {v : α} (hop : op b = Except.ok v) :
    fetchBatchLoop op m (f + 1) b le =
      ((if 1 < b then [REvent.sleep (2 ^ (b - 1) * 1000)] else []) ++
        [REvent.invoke b], Except.ok v) := by
  simp [fetchBatchLoop, hop]

/-- Helper: unfolding of the batch retry loop when the final attempt
fails. -/
theorem fetchBatchLoop_succ_last {ε α : Type} {op : Nat → Except ε α} {m f b : Nat}
    {le : Option ε} {e : ε} (hop : op b = Except.error e) (hbm : b = m) :
    fetchBatchLoop op m (f + 1) b le =
      ((if 1 < b then [REvent.sleep (2 ^ (b - 1) * 1000)] else []) ++
        [REvent.invoke b], Except.error (some e)) := by
  subst hbm
  simp [fetchBatchLoop, hop]

/-- Helper: unfolding of the batch retry loop when a non-final attempt
fails. -/
theorem fetchBatchLoop_succ_retry {ε α : Type} {op : Nat → Except ε α} {m f b : Nat}
    {le : Option ε} {e : ε} (hop : op b = Except.error e) (hbm : ¬ b = m) :
    fetchBatchLoop op m (f + 1) b le =
      ((if 1 < b then [REvent.sleep (2 ^ (b - 1) * 1000)] else []) ++
        REvent.invoke b :: (fetchBatchLoop op m f (b + 1) (some e)).1,
       (fetchBatchLoop op m f (b + 1) (some e)).2) := by
  simp [fetchBatchLoop, hop, hbm]

/-- Helper: the batch retry loop performs at most one invocation per
unit of fuel (loop iteration). -/
theorem fetchBatchLoop_invokeCount_le {ε α : Type} (op : Nat → Except ε α) (m : Nat) :
    ∀ (fuel b : Nat) (le : Option ε),
      invokeCount (fetchBatchLoop op m fuel b le).1 ≤ fuel := by
  intro fuel
  induction fuel with
  | zero => intro b le; simp [fetchBatchLoop, invokeCount]
  | succ f ih =>
    intro b le
    cases hop : op b with
    | ok v =>
      rw [fetchBatchLoop_succ_ok hop]
      rw [invokeCount_append, invokeCount_pre, invokeCount_invoke]
      omega
    | error e =>
      by_cases hbm : b = m
      · rw [fetchBatchLoop_succ_last hop hbm]
        rw [invokeCount_append, invokeCount_pre, invokeCount_invoke]
        omega
      · rw [fetchBatchLoop_succ_retry hop hbm]
        have h2 := ih (b + 1) (some e)
        rw [invokeCount_append, invokeCount_pre, invokeCount_cons_invoke]
        omega

/-- Helper: when every attempt before `s` fails and attempt `s`
succeeds, the loop returns the success value after exactly the
invocations for attempts `b..s`. -/
theorem fetchBatchLoop_first_success {ε α : Type} (op : Nat → Except ε α) (m : Nat)
    (err : Nat → ε) (s : Nat) (v : α) :
    ∀ (fuel b : Nat) (le : Option ε),
      (∀ i, b ≤ i → i < s → op i = Except.error (err i)) →
      op s = Except.ok v →
      b ≤ s → s ≤ m → s < b + fuel →
      (fetchBatchLoop op m fuel b le).2 = Except.ok v ∧
      invokeCount (fetchBatchLoop op m fuel b le).1 = s + 1 - b := by
  intro fuel
  induction fuel with
  | zero => intro b le _ _ hbs _ hlt; omega
  | succ f ih =>
    intro b le hfail hok hbs hsm hlt
    by_cases hbeq : b = s
    · subst hbeq
      rw [fetchBatchLoop_succ_ok hok]
      refine ⟨rfl, ?_⟩
      rw [invokeCount_append, invokeCount_pre, invokeCount_invoke]
      omega
    · have hbs₁ : b < s := lt_of_le_of_ne hbs hbeq
      have hopb : op b = Except.error (err b) := hfail b le_rfl hbs₁
      have hbm : ¬ b = m := by omega
      rw [fetchBatchLoop_succ_retry hopb hbm]
      obtain ⟨h1, h2⟩ := ih (b + 1) (some (err b))
        (fun i hi1 hi2 => hfail i (by omega) hi2) hok (by omega) hsm (by omega)
      refine ⟨h1, ?_⟩
      rw [invokeCount_append, invokeCount_pre, invokeCount_cons_invoke]
      omega

/-- Helper: when every attempt up to `maxRetries` fails, the loop
rethrows the error of the final attempt after invoking each attempt. -/
theorem fetchBatchLoop_all_fail {ε α : Type} (op : Nat → Except ε α) (m : Nat)
    (err : Nat → ε) :
    ∀ (fuel b : Nat) (le : Option ε),
      (∀ i, b ≤ i → i ≤ m → op i = Except.error (err i)) →
      b ≤ m → m < b + fuel →
      ((fetchBatchLoop op m fuel b le).2 : Except (Option ε) α) =
        Except.error (some (err m)) ∧
      invokeCount (fetchBatchLoop op m fuel b le).1 = m + 1 - b := by
  intro fuel
  induction fuel with
  | zero => intro b le _ hbm hlt; omega
  | succ f ih =>
    intro b le hfail hbm hlt
    by_cases hbeq : b = m
    · have hopb : op b = Except.error (err b) := hfail b le_rfl (by omega)
      rw [fetchBatchLoop_succ_last hopb hbeq]
      subst hbeq
      refine ⟨rfl, ?_⟩
      rw [invokeCount_append, invokeCount_pre, invokeCount_invoke]
      omega
    · have hbm₁ : b < m := lt_of_le_of_ne hbm hbeq
      have hopb : op b = Except.error (err b) := hfail b le_rfl (by omega)
      rw [fetchBatchLoop_succ_retry hopb hbeq]
      obtain ⟨h1, h2⟩ := ih (b + 1) (some (err b))
        (fun i hi1 hi2 => hfail i (by omega) hi2) (by omega) (by omega)
      refine ⟨h1, ?_⟩
      rw [invokeCount_append, invokeCount_pre, invokeCount_cons_invoke]
      omega

/-- Helper: when every attempt before `a` fails, the batch retry trace
contains the backoff sleep of attempt `a` immediately before its
invocation. -/
theorem fetchBatchLoop_sleep_before {ε α : Type} (op : Nat → Except ε α) (m : Nat)
    (err : Nat → ε) (a : Nat) (ha2 : 2 ≤ a) :
    ∀ (fuel b : Nat) (le : Option ε),
      (∀ i, b ≤ i → i < a → op i = Except.error (err i)) →
      b ≤ a → a ≤ m → a < b + fuel →
      ∃ l₁ l₂, (fetchBatchLoop op m fuel b le).1 =
        l₁ ++ REvent.sleep (2 ^ (a - 1) * 1000) :: REvent.invoke a :: l₂ := by
  intro fuel
  induction fuel with
  | zero => intro b le _ hba _ hlt; omega
  | succ f ih =>
    intro b le hfail hba ham hlt
    by_cases hbeq : b = a
    · subst hbeq
      have hpre : (if 1 < b then [REvent.sleep (2 ^ (b - 1) * 1000)] else []) =
          [REvent.sleep (2 ^ (b - 1) * 1000)] := if_pos (by omega)
      cases hop : op b with
      | ok v =>
        rw [fetchBatchLoop_succ_ok hop]
        exact ⟨[], [], by simp [hpre]⟩
      | error e =>
        by_cases hbm : b = m
        · rw [fetchBatchLoop_succ_last hop hbm]
          exact ⟨[], [], by simp [hpre]⟩
        · rw [fetchBatchLoop_succ_retry hop hbm]
          exact ⟨[], (fetchBatchLoop op m f (b + 1) (some e)).1, by simp [hpre]⟩
    · have hba₁ : b < a := lt_of_le_of_ne hba hbeq
      have hopb : op b = Except.error (err b) := hfail b le_rfl hba₁
      have hbm : ¬ b = m := by omega
      rw [fetchBatchLoop_succ_retry hopb hbm]
      obtain ⟨l₁, l₂, hl⟩ := ih (b + 1) (some (err b))
        (fun i hi1 hi2 => hfail i (by omega) hi2) (by omega) ham (by omega)
      refine ⟨(if 1 < b then [REvent.sleep (2 ^ (b - 1) * 1000)] else []) ++
        REvent.invoke b :: l₁, l₂, ?_⟩
      rw [hl]
      simp

/-- Helper: with at least one loop iteration available, the batch retry
trace of attempt 1 starts directly with the first invocation. -/
theorem fetchBatchLoop_head {ε α : Type} (op : Nat → Except ε α) (m f : Nat)
    (le : Option ε) :
    ∃ rest, (fetchBatchLoop op m (f + 1) 1 le).1 = REvent.invoke 1 :: rest := by
  have hpre : (if (1 : Nat) < 1 then [REvent.sleep (2 ^ (1 - 1) * 1000)] else []) =
      [] := if_neg (by omega)
  cases hop : op 1 with
  | ok v =>
    rw [fetchBatchLoop_succ_ok hop]
    exact ⟨[], by simp [hpre]⟩
  | error e =>
    by_cases hm : 1 = m
    · rw [fetchBatchLoop_succ_last hop hm]
      exact ⟨[], by simp [hpre]⟩
    · rw [fetchBatchLoop_succ_retry hop hm]
      exact ⟨(fetchBatchLoop op m f 2 (some e)).1, by simp [hpre]⟩

/-- Helper: unfolding of the part_000 retry loop on a successful
attempt. -/
theorem fetchRetryLoop_succ_ok {ε α : Type} {op : Nat → Except ε α} {m f b : Nat}
    {v : α} (hop : op b = Except.ok v) :
    fetchRetryLoop op m (f + 1) b = ([REvent.invoke b], Except.ok (some v)) := by
  simp [fetchRetryLoop, hop]

/-- Helper: unfolding of the part_000 retry loop when the final attempt
fails. -/
theorem fetchRetryLoop_succ_last {ε α : Type} {op : Nat → Except ε α} {m f b : Nat}
    {e : ε} (hop : op b = Except.error e) (hbm : b = m) :
    fetchRetryLoop op m (f + 1) b =
      (([REvent.invoke b] : List REvent),
        (Except.error e : Except ε (Option α))) := by
  subst hbm
  simp [fetchRetryLoop, hop]

/-- Helper: unfolding of the part_000 retry loop when a non-final
attempt fails: sleep the capped backoff after the failed invocation. -/
theorem fetchRetryLoop_succ_retry {ε α : Type} {op : Nat → Except ε α} {m f b : Nat}
    {e : ε} (hop : op b = Except.error e) (hbm : ¬ b = m) :
    fetchRetryLoop op m (f + 1) b =
      (REvent.invoke b :: REvent.sleep (min (1000 * 2 ^ b) 10000) ::
        (fetchRetryLoop op m f (b + 1)).1,
       (fetchRetryLoop op m f (b + 1)).2) := by
  simp [fetchRetryLoop, hop, hbm]

/-- Helper: the part_000 retry trace of any attempt starts with its
invocation. -/
theorem fetchRetryLoop_head {ε α : Type} (op : Nat → Except ε α) (m f b : Nat) :
    ∃ rest, (fetchRetryLoop op m (f + 1) b).1 = REvent.invoke b :: rest := by
  cases hop : op b with
  | ok v =>
    rw [fetchRetryLoop_succ_ok hop]
    exact ⟨[], rfl⟩
  | error e =>
    by_cases hm : b = m
    · rw [fetchRetryLoop_succ_last hop hm]
      exact ⟨[], rfl⟩
    · rw [fetchRetryLoop_succ_retry hop hm]
      exact ⟨_, rfl⟩

/-- Helper: when every attempt before `a` fails, the part_000 retry
trace contains the capped backoff sleep immediately before the
invocation of attempt `a`. -/
theorem fetchRetryLoop_sleep_before {ε α : Type} (op : Nat → Except ε α) (m : Nat)
    (err : Nat → ε) (a : Nat) (ha2 : 2 ≤ a) :
    ∀ (fuel b : Nat),
      (∀ i, b ≤ i → i < a → op i = Except.error (err i)) →
      b < a → a ≤ m → a < b + fuel →
      ∃ l₁ l₂, (fetchRetryLoop op m fuel b).1 =
        l₁ ++ REvent.sleep (min 10000 (1000 * 2 ^ (a - 1))) :: REvent.invoke a :: l₂ := by
  intro fuel
  induction fuel with
  | zero => intro b _ hba _ hlt; omega
  | succ f ih =>
    intro b hfail hba ham hlt
    have hopb : op b = Except.error (err b) := hfail b le_rfl hba
    have hbm : ¬ b = m := by omega
    rw [fetchRetryLoop_succ_retry hopb hbm]
    by_cases hbeq : b + 1 = a
    · obtain ⟨f₁, hf⟩ : ∃ f₁, f = f₁ + 1 := ⟨f - 1, by omega⟩
      subst hf
      obtain ⟨rest, hr⟩ := fetchRetryLoop_head op m f₁ (b + 1)
      refine ⟨[REvent.invoke b], rest, ?_⟩
      have hd : min (1000 * 2 ^ b) 10000 = min 10000 (1000 * 2 ^ (a - 1)) := by
        have hb : b = a - 1 := by omega
        rw [hb, Nat.min_comm]
      rw [hr, hbeq, hd]
      rfl
    · obtain ⟨l₁, l₂, hl⟩ := ih (b + 1)
        (fun i hi1 hi2 => hfail i (by omega) hi2) (by omega) ham (by omega)
      refine ⟨REvent.invoke b :: REvent.sleep (min (1000 * 2 ^ b) 10000) :: l₁, l₂, ?_⟩
      rw [hl]
      rfl

/-- C3 (amended): before each retry attempt `a` (2 ≤ a ≤ maxAttempts),
`ACSAPIService.fetchBatchWithRetry` suspends for exactly
`2^(a-1) * 1000` ms with no cap, while `CensusDataFetcher.fetchWithRetry`
suspends for exactly `min(10000, 1000 * 2^(a-1))` ms; neither controller
suspends before the first attempt. -/
theorem retryBackoff_delay_schedule {ε α ε2 α2 : Type}
    (m a : Nat) (op : Nat → Except ε α) (op2 : Nat → Except ε2 α2)
    (err : Nat → ε) (err2 : Nat → ε2) :
    (2 ≤ a → a ≤ m → (∀ i, 1 ≤ i → i < a → op i = Except.error (err i)) →
      ∃ l₁ l₂, (fetchBatchWithRetry m op).1 =
        l₁ ++ REvent.sleep (2 ^ (a - 1) * 1000) :: REvent.invoke a :: l₂) ∧
    (1 ≤ m → ∃ rest, (fetchBatchWithRetry m op).1 = REvent.invoke 1 :: rest) ∧
    (2 ≤ a → a ≤ m → (∀ i, 1 ≤ i → i < a → op2 i = Except.error (err2 i)) →
      ∃ l₁ l₂, (fetchWithRetry m op2).1 =
        l₁ ++ REvent.sleep (min 10000 (1000 * 2 ^ (a - 1))) :: REvent.invoke a :: l₂) ∧
    (1 ≤ m → ∃ rest, (fetchWithRetry m op2).1 = REvent.invoke 1 :: rest) := by
  refine ⟨?_, ?_, ?_, ?_⟩
  · intro ha2 ham hfail
    exact fetchBatchLoop_sleep_before op m err a ha2 m 1 none hfail (by omega) ham
      (by omega)
  · intro hm
    obtain ⟨f, hf⟩ : ∃ f, m = f + 1 := ⟨m - 1, by omega⟩
    rw [fetchBatchWithRetry, hf]
    exact fetchBatchLoop_head op (f + 1) f none
  · intro ha2 ham hfail
    exact fetchRetryLoop_sleep_before op2 m err2 a ha2 m 1 hfail (by omega) ham
      (by omega)
  · intro hm
    obtain ⟨f, hf⟩ : ∃ f, m = f + 1 := ⟨m - 1, by omega⟩
    rw [fetchWithRetry, hf]
    exact fetchRetryLoop_head op2 (f + 1) f 1

/-- Witness for C3 at a concrete input: maxAttempts 3, an operation
failing on every attempt; attempt 2 is preceded by its computed backoff
in both controllers and neither trace starts with a sleep. -/
theorem retryBackoff_delay_schedule_witness :
    ((2 : Nat) ≤ 2 ∧ (2 : Nat) ≤ 3) ∧
    (∃ l₁ l₂, (fetchBatchWithRetry 3 (fun i => (Except.error i : Except Nat Nat))).1 =
      l₁ ++ REvent.sleep (2 ^ (2 - 1) * 1000) :: REvent.invoke 2 :: l₂) ∧
    (∃ rest, (fetchBatchWithRetry 3 (fun i => (Except.error i : Except Nat Nat))).1 =
      REvent.invoke 1 :: rest) ∧
    (∃ l₁ l₂, (fetchWithRetry 3 (fun i => (Except.error i : Except Nat Nat))).1 =
      l₁ ++ REvent.sleep (min 10000 (1000 * 2 ^ (2 - 1))) :: REvent.invoke 2 :: l₂) ∧
    (∃ rest, (fetchWithRetry 3 (fun i => (Except.error i : Except Nat Nat))).1 =
      REvent.invoke 1 :: rest) := by
  have h := retryBackoff_delay_schedule 3 2
    (fun i => (Except.error i : Except Nat Nat))
    (fun i => (Except.error i : Except Nat Nat)) (fun i => i) (fun i => i)
  exact ⟨⟨by omega, by omega⟩,
    h.1 (by omega) (by omega) (fun i h1 h2 => rfl),
    h.2.1 (by omega),
    h.2.2.1 (by omega) (by omega) (fun i h1 h2 => rfl),
    h.2.2.2 (by omega)⟩

/-- C3 counterexample: with maxAttempts 6 and an always-failing
operation, the service controller sleeps 32000 ms before attempt 6,
which differs from `min(timeoutCap, 1000 * 2^(a-1))` for both caps
present in the repository (10000 in part_000, the service's 30000
request timeout). -/
theorem backoff_uncapped_counterexample :
    (fetchBatchWithRetry 6 (fun _ => (Except.error () : Except Unit Unit))).1 =
      [REvent.invoke 1, REvent.sleep 2000, REvent.invoke 2, REvent.sleep 4000,
       REvent.invoke 3, REvent.sleep 8000, REvent.invoke 4, REvent.sleep 16000,
       REvent.invoke 5, REvent.sleep 32000, REvent.invoke 6] ∧
    (32000 : Nat) ≠ min 10000 (1000 * 2 ^ (6 - 1)) ∧
    (32000 : Nat) ≠ min 30000 (1000 * 2 ^ (6 - 1)) := by
  refine ⟨?_, by decide, by decide⟩
  decide

/-- C6 (amended): the batch retry controller invokes the operation at
most maxAttempts times; with failures before a first success at attempt
`s` it returns that success after exactly `s` invocations (in
particular, maxAttempts - 1 failures followed by a success yield the
success value after exactly maxAttempts invocations); and when every
attempt fails it propagates the failure of the last attempt unchanged —
not annotated with the attempt count, which appears only in the
console/log messages, never on the rethrown error. -/
theorem runWithRetry_contract {ε α : Type} (m s : Nat) (op : Nat → Except ε α)
    (err : Nat → ε) (v : α) :
    invokeCount (fetchBatchWithRetry m op).1 ≤ m ∧
    ((∀ i, 1 ≤ i → i < s → op i = Except.error (err i)) → op s = Except.ok v →
      1 ≤ s → s ≤ m →
      (fetchBatchWithRetry m op).2 = Except.ok v ∧
      invokeCount (fetchBatchWithRetry m op).1 = s) ∧
    ((∀ i, 1 ≤ i → i ≤ m → op i = Except.error (err i)) → 1 ≤ m →
      (fetchBatchWithRetry m op).2 = Except.error (some (err m)) ∧
      invokeCount (fetchBatchWithRetry m op).1 = m) := by
  refine ⟨fetchBatchLoop_invokeCount_le op m m 1 none, ?_, ?_⟩
  · intro hfail hok hs1 hsm
    obtain ⟨h1, h2⟩ := fetchBatchLoop_first_success op m err s v m 1 none hfail hok
      hs1 hsm (by omega)
    simp only [fetchBatchWithRetry]
    exact ⟨h1, by omega⟩
  · intro hfail hm
    obtain ⟨h1, h2⟩ := fetchBatchLoop_all_fail op m err m 1 none hfail hm (by omega)
    simp only [fetchBatchWithRetry]
    exact ⟨h1, by omega⟩

/-- Witness for C6 at a concrete input: maxAttempts 3, an operation
failing on attempts 1 and 2 and succeeding on attempt 3, returns the
success value after exactly 3 invocations. -/
theorem runWithRetry_contract_witness :
    (fetchBatchWithRetry 3 (fun i => if i < 3 then Except.error i else Except.ok 99)).2 =
      Except.ok 99 ∧
    invokeCount
      (fetchBatchWithRetry 3 (fun i => if i < 3 then Except.error i else Except.ok 99)).1 = 3 :=
  (runWithRetry_contract 3 3 (fun i => if i < 3 then Except.error i else Except.ok 99)
    (fun i => i) 99).2.1
    (fun i h1 h2 => by simp [h2]) (by norm_num) (by omega) (by omega)

/-- C6 counterexample: the controller rethrows the raw last error, not
a failure annotated with the attempt count — with the identical failing
operation the propagated error is the same raw "network down" whether
maxAttempts is 2 or 3, so it cannot carry the attempt count. -/
theorem retryPropagation_unannotated_counterexample :
    (fetchBatchWithRetry 2
      (fun _ => (Except.error "network down" : Except String Unit))).2 =
      Except.error (some "network down") ∧
    (fetchBatchWithRetry 3
      (fun _ => (Except.error "network down" : Except String Unit))).2 =
      Except.error (some "network down") := by
  exact ⟨rfl, rfl⟩

/-- Helper: a write-evict pair adds one write to the trace count. -/
theorem writeCount_step (b : Nat) (l : List CEvent) :
    writeCount (CEvent.write b :: CEvent.evict 20 :: l) = writeCount l + 1 := by
  simp [writeCount]

/-- Helper: a write-evict pair adds one eviction to the trace count. -/
theorem evictCount_step (b : Nat) (l : List CEvent) :
    evictCount (CEvent.write b :: CEvent.evict 20 :: l) = evictCount l + 1 := by
  simp [evictCount]

/-- Helper: when the quota rejects every write attempt before `k` and
the attempt `k` succeeds, the cacheData retry chain performs the write
attempts `b..k` with an eviction of 20 after every failed one. -/
theorem cacheDataModel_chain (q : Nat → Bool) (k : Nat) :
    ∀ (fuel b : Nat),
      (∀ i, b ≤ i → i < k → q i = true) → q k = false →
      b ≤ k → k < b + fuel →
      writeCount (cacheDataModel q fuel b) = k + 1 - b ∧
      evictCount (cacheDataModel q fuel b) = k - b := by
  intro fuel
  induction fuel with
  | zero => intro b _ _ hbk hlt; omega
  | succ f ih =>
    intro b hq hqk hbk hlt
    by_cases hbeq : b = k
    · subst hbeq
      simp [cacheDataModel, hqk, writeCount, evictCount]
    · have hb : q b = true := hq b le_rfl (by omega)
      simp only [cacheDataModel, hb, if_true]
      obtain ⟨h1, h2⟩ := ih (b + 1) (fun i hi1 hi2 => hq i (by omega) hi2) hqk
        (by omega) (by omega)
      rw [writeCount_step, evictCount_step, h1, h2]
      constructor <;> omega

/-- Helper: in a list of pairs whose first components are duplicate
free, equal keys force equal pairs. -/
theorem nodup_fst_inj {β : Type} :
    ∀ (l : List (String × β)), (l.map Prod.fst).Nodup →
      ∀ a, a ∈ l → ∀ b, b ∈ l → a.1 = b.1 → a = b := by
  intro l
  induction l with
  | nil => intro _ a ha; simp at ha
  | cons x t ih =>
    intro hnd a ha b hb heq
    rw [List.map_cons, List.nodup_cons] at hnd
    obtain ⟨hx, hnd2⟩ := hnd
    rcases List.mem_cons.mp ha with ha1 | ha2 <;>
      rcases List.mem_cons.mp hb with hb1 | hb2
    · rw [ha1, hb1]
    · exfalso
      apply hx
      have hb1m : b.1 ∈ t.map Prod.fst := List.mem_map_of_mem Prod.fst hb2
      subst ha1
      rw [heq]
      exact hb1m
    · exfalso
      apply hx
      have ha1m : a.1 ∈ t.map Prod.fst := List.mem_map_of_mem Prod.fst ha2
      subst hb1
      rw [← heq]
      exact ha1m
    · exact ih hnd2 a ha2 b hb2 heq

/-- Helper: `clearOldestCacheEntries` sorts the namespaced entries
ascending by recorded cache-write instant. -/
theorem oldestSorted_pairwise (pfx : String) (store : List (String × StoredVal)) :
    (oldestSorted pfx store).Pairwise (fun a b => a.2 ≤ b.2) := by
  have h := @List.sorted_mergeSort (String × Int)
    (fun a b => decide (a.2 ≤ b.2))
    (fun a b c hab hbc => by
      simp only [decide_eq_true_eq] at *
      omega)
    (fun a b => by
      simp only [Bool.or_eq_true, decide_eq_true_eq]
      omega)
    (agedEntries pfx store)
  exact h.imp (fun hab => by simpa using hab)

/-- C4 (amended): on a quota failure during a cache write the store
evicts the 20 oldest namespaced entries ranked by the recorded
cache-write instant and schedules a retry of the whole write, and this
policy repeats on every further quota failure until a write succeeds —
not exactly one retry — while no failure is surfaced to the caller
(cacheData catches every storage error); the eviction ranking is by
cache-write instant: every evicted namespaced entry is at least as old
as every surviving namespaced entry. -/
theorem cachePut_quota_eviction (q : Nat → Bool) (k fuel : Nat)
    (pfx : String) (count : Nat) (store : List (String × StoredVal))
    (kv kv2 : String × StoredVal) :
    ((∀ i, 1 ≤ i → i < k → q i = true) → q k = false → 1 ≤ k → k ≤ fuel →
      writeCount (cacheDataModel q fuel 1) = k ∧
      evictCount (cacheDataModel q fuel 1) = k - 1) ∧
    ((store.map Prod.fst).Nodup → kv ∈ store → strStartsWith kv.1 pfx = true →
      kv ∉ clearOldestCacheEntries pfx count store →
      kv2 ∈ clearOldestCacheEntries pfx count store →
      strStartsWith kv2.1 pfx = true →
      kv.2.cachedAt ≤ kv2.2.cachedAt) := by
  constructor
  · intro hq hqk hk1 hkf
    obtain ⟨h1, h2⟩ := cacheDataModel_chain q k fuel 1 hq hqk hk1 (by omega)
    exact ⟨by omega, by omega⟩
  · intro hnd hkv hpfx hrem hkv2 hpfx2
    have hLA : List.Perm (oldestSorted pfx store) (agedEntries pfx store) :=
      List.mergeSort_perm (agedEntries pfx store) _
    have hAfst : (agedEntries pfx store).map Prod.fst =
        (store.filter fun kv => strStartsWith kv.1 pfx).map Prod.fst := by
      simp [agedEntries, List.map_map]
    have hndA : ((agedEntries pfx store).map Prod.fst).Nodup := by
      rw [hAfst]
      exact hnd.sublist (List.Sublist.map Prod.fst (List.filter_sublist store))
    have hndL : ((oldestSorted pfx store).map Prod.fst).Nodup :=
      ((hLA.map Prod.fst).nodup_iff).mpr hndA
    have hpair := oldestSorted_pairwise pfx store
    have hpairKvA : (kv.1, kv.2.cachedAt) ∈ agedEntries pfx store :=
      List.mem_map_of_mem _ (List.mem_filter.mpr ⟨hkv, hpfx⟩)
    have hpairKvL : (kv.1, kv.2.cachedAt) ∈ oldestSorted pfx store :=
      (hLA.mem_iff).mpr hpairKvA
    have hpairKv2A : (kv2.1, kv2.2.cachedAt) ∈ agedEntries pfx store :=
      List.mem_map_of_mem _ (List.mem_filter.mpr
        ⟨(List.mem_filter.mp hkv2).1, hpfx2⟩)
    have hpairKv2L : (kv2.1, kv2.2.cachedAt) ∈ oldestSorted pfx store :=
      (hLA.mem_iff).mpr hpairKv2A
    -- the removed entry's key is among the doomed keys
    have hkvDoomed : kv.1 ∈ ((oldestSorted pfx store).take count).map Prod.fst := by
      by_contra hno
      apply hrem
      refine List.mem_filter.mpr ⟨hkv, ?_⟩
      rw [List.map_take] at hno
      simp [List.contains, List.elem_eq_mem, hno]
    -- hence its age pair sits in the sorted prefix
    obtain ⟨p, hpTake, hpKey⟩ := List.mem_map.mp hkvDoomed
    have hpL : p ∈ oldestSorted pfx store := List.take_subset count _ hpTake
    have hpEq : p = (kv.1, kv.2.cachedAt) :=
      nodup_fst_inj _ hndL p hpL (kv.1, kv.2.cachedAt) hpairKvL hpKey
    rw [hpEq] at hpTake
    -- the surviving entry's key is not doomed, so its pair is in the suffix
    have hkv2NotDoomed :
        kv2.1 ∉ ((oldestSorted pfx store).take count).map Prod.fst := by
      intro hmem
      have hc := (List.mem_filter.mp hkv2).2
      rw [List.map_take] at hmem
      simp [List.contains, List.elem_eq_mem, hmem] at hc
    have hpairKv2Drop : (kv2.1, kv2.2.cachedAt) ∈ (oldestSorted pfx store).drop count := by
      have := hpairKv2L
      rw [← List.take_append_drop count (oldestSorted pfx store)] at this
      rcases List.mem_append.mp this with h1 | h2
      · exact absurd (List.mem_map_of_mem Prod.fst h1) hkv2NotDoomed
      · exact h2
    -- cross inequality from sortedness
    rw [← List.take_append_drop count (oldestSorted pfx store)] at hpair
    obtain ⟨-, -, hcross⟩ := List.pairwise_append.mp hpair
    exact hcross (kv.1, kv.2.cachedAt) hpTake (kv2.1, kv2.2.cachedAt) hpairKv2Drop

/-- Witness for C4 at a concrete input: a quota oracle failing twice
then succeeding yields three write attempts with two evictions of 20;
and in a two-entry store the evicted entry (cachedAt 1) is older than
the survivor (cachedAt 2). -/
theorem cachePut_quota_eviction_witness :
    (writeCount (cacheDataModel (fun i => decide (i < 3)) 5 1) = 3 ∧
     evictCount (cacheDataModel (fun i => decide (i < 3)) 5 1) = 2) ∧
    (("pa", StoredVal.entry 0 1).2.cachedAt ≤ ("pb", StoredVal.entry 0 2).2.cachedAt) := by
  constructor
  · exact (cachePut_quota_eviction (fun i => decide (i < 3)) 3 5 "p" 1
      [("pa", StoredVal.entry 0 1), ("pb", StoredVal.entry 0 2)]
      ("pa", StoredVal.entry 0 1) ("pb", StoredVal.entry 0 2)).1
      (fun i h1 h2 => decide_eq_true h2) (by decide) (by omega) (by omega)
  · refine (cachePut_quota_eviction (fun i => decide (i < 3)) 3 5 "p" 1
      [("pa", StoredVal.entry 0 1), ("pb", StoredVal.entry 0 2)]
      ("pa", StoredVal.entry 0 1) ("pb", StoredVal.entry 0 2)).2
      (by decide) (by decide) (by decide) ?_ ?_ (by decide)
    · intro hmem
      have : clearOldestCacheEntries "p" 1
          [("pa", StoredVal.entry 0 1), ("pb", StoredVal.entry 0 2)] =
          [("pb", StoredVal.entry 0 2)] := by
        simp [clearOldestCacheEntries, oldestSorted, agedEntries, strStartsWith,
          StoredVal.cachedAt, List.mergeSort, List.splitInTwo, List.splitAt,
          List.splitAt.go, List.merge]
      rw [this] at hmem
      simp at hmem
    · have : clearOldestCacheEntries "p" 1
          [("pa", StoredVal.entry 0 1), ("pb", StoredVal.entry 0 2)] =
          [("pb", StoredVal.entry 0 2)] := by
        simp [clearOldestCacheEntries, oldestSorted, agedEntries, strStartsWith,
          StoredVal.cachedAt, List.mergeSort, List.splitInTwo, List.splitAt,
          List.splitAt.go, List.merge]
      rw [this]
      simp

/-- C4 counterexample: with the quota failing on every attempt, the
cacheData retry chain performs a third write attempt after the first
retry has already failed, contradicting "retries the write exactly once
more and surfaces the failure if that single retry also fails". -/
theorem cacheData_retry_unbounded_counterexample :
    cacheDataModel (fun _ => true) 3 1 =
      [CEvent.write 1, CEvent.evict 20, CEvent.write 2, CEvent.evict 20,
       CEvent.write 3, CEvent.evict 20] ∧
    ¬ writeCount (cacheDataModel (fun _ => true) 3 1) ≤ 2 := by
  constructor <;> decide

/-- Helper: re-indexing the same record is a no-op on the index built
from it. -/
theorem indexRecord_idem (r : ZipRecord) (hstate : r.state_id ≠ "") :
    indexRecord (indexRecord emptyIndex r) r = indexRecord emptyIndex r := by
  by_cases hc : r.city = "" <;> by_cases hf : r.county_fips = "" <;>
    simp [indexRecord, emptyIndex, mapGet, mapSet, setAdd, addToSetMap, hstate, hc, hf]

/-- Helper: loading the same record any positive number of times gives
the same index as loading it once. -/
theorem loadTimes_stable (r : ZipRecord) (hstate : r.state_id ≠ "") :
    ∀ n, 1 ≤ n → loadTimes r n = loadTimes r 1 := by
  intro n
  induction n with
  | zero => intro h; omega
  | succ m ih =>
    intro _
    by_cases hm : 1 ≤ m
    · show indexRecord (loadTimes r m) r = loadTimes r 1
      rw [ih hm]
      exact indexRecord_idem r hstate
    · have hm0 : m = 0 := by omega
      subst hm0
      rfl

/-- C7 (amended): for a record whose state code is nonempty and fixed
by uppercasing and whose ZIP is fixed by five-character zero-padding,
loading the record any positive number of times into an empty index and
then querying getByState with its state code returns exactly one entry,
that record — so its ZIP occurs exactly once. -/
theorem loadThenByState_roundtrip (r : ZipRecord) (n limit : Nat)
    (hstate : r.state_id ≠ "")
    (hupper : jsToUpperCase r.state_id = r.state_id)
    (hpad : padStart5 r.zip = r.zip)
    (hn : 1 ≤ n) :
    getByState (loadTimes r n) r.state_id limit = [some r] := by
  rw [loadTimes_stable r hstate n hn]
  have hzips : (loadTimes r 1).zips = [(r.zip, r)] := by
    simp [loadTimes, indexRecord, emptyIndex, mapSet]
  have hstateIdx : (loadTimes r 1).stateIndex = [(r.state_id, [r.zip])] := by
    simp [loadTimes, indexRecord, emptyIndex, addToSetMap, mapGet, setAdd, hstate]
  rw [getByState, hupper, hstateIdx]
  by_cases hl : limit ≤ 1 <;>
    simp [getByStateGo, ZIPIndex.get, hzips, hpad, mapGet, hl]

/-- Witness for C7 at a concrete input: loading a normalized New York
record twice and querying its state returns exactly that record once. -/
theorem loadThenByState_roundtrip_witness :
    getByState (loadTimes ⟨"00001", none, none, "New York", "NY", "36061"⟩ 2) "NY" 100 =
      [some ⟨"00001", none, none, "New York", "NY", "36061"⟩] :=
  loadThenByState_roundtrip ⟨"00001", none, none, "New York", "NY", "36061"⟩ 2 100
    (by decide) (by decide) (by decide) (by omega)

/-- C7 counterexample: a record whose state code is stored lowercase is
indexed under "ny", but getByState uppercases the query to "NY" and
finds nothing — the ZIP occurs zero times, not exactly once. -/
theorem getByState_lowercase_state_counterexample :
    getByState (loadTimes ⟨"00001", none, none, "New York", "ny", "36061"⟩ 1) "ny" 100 =
      [] := by
  decide

/-- Helper: the in-place lexicographic sort leaves the variables array
sorted. -/
theorem sortLex_pairwise (l : List String) :
    (sortLex l).Pairwise (fun a b => a ≤ b) := by
  have h := @List.sorted_mergeSort String (fun a b => decide (a ≤ b))
    (fun a b c hab hbc => by
      simp only [decide_eq_true_eq] at *
      exact le_trans hab hbc)
    (fun a b => by
      simp only [Bool.or_eq_true, decide_eq_true_eq]
      exact le_total a b)
    l
  exact h.imp (fun hab => by simpa using hab)

/-- Helper: the in-place sort permutes the caller's array. -/
theorem sortLex_perm (l : List String) : List.Perm (sortLex l) l :=
  List.mergeSort_perm l _

/-- Helper: sorting an already sorted variables array changes nothing. -/
theorem sortLex_idem (l : List String) : sortLex (sortLex l) = sortLex l := by
  apply List.mergeSort_of_sorted
  exact (sortLex_pairwise l).imp (fun h => decide_eq_true h)

/-- Helper: once the variables array is sorted, every further cache-key
derivation in the per-ZIP loop leaves it unchanged. -/
theorem foldl_sortLex_fixed (pfx : String) (v : List String) :
    ∀ zs : List String,
      zs.foldl (fun vs z => (getCacheKey pfx z vs).2) (sortLex v) = sortLex v := by
  intro zs
  induction zs with
  | nil => rfl
  | cons z zs ih =>
    simp only [List.foldl_cons]
    rw [show (getCacheKey pfx z (sortLex v)).2 = sortLex (sortLex v) from rfl,
      sortLex_idem]
    exact ih

/-- C10: getCacheKey sorts the caller's variables array in place, so
after the call the array holds a sorted permutation of its previous
contents; and every fetchDataForZips call that passes validation
(nonempty ZIP list and variables) leaves the caller's variables array
equal to that sorted permutation rather than unchanged. -/
theorem getCacheKey_mutates_variables (pfx zip : String)
    (varNames zipCodes : List String) :
    ((getCacheKey pfx zip varNames).2.Pairwise fun a b => a ≤ b) ∧
    List.Perm (getCacheKey pfx zip varNames).2 varNames ∧
    (zipCodes ≠ [] → varNames ≠ [] →
      fetchVarsAfterCacheCheck pfx zipCodes varNames = some (sortLex varNames)) := by
  refine ⟨sortLex_pairwise varNames, sortLex_perm varNames, ?_⟩
  intro hz hv
  obtain ⟨z, zs, rfl⟩ : ∃ z zs, zipCodes = z :: zs := by
    cases zipCodes with
    | nil => exact absurd rfl hz
    | cons z zs => exact ⟨z, zs, rfl⟩
  rw [fetchVarsAfterCacheCheck]
  rw [if_neg (by simp), if_neg (by simpa using hv)]
  simp only [List.foldl_cons]
  rw [show (getCacheKey pfx z varNames).2 = sortLex varNames from rfl,
    foldl_sortLex_fixed]

/-- Witness for C10 at a concrete input: fetching ZIP 10001 with
variables ["b", "a"] leaves the caller's variables array as the sorted
["a", "b"]. -/
theorem getCacheKey_mutates_variables_witness :
    (["10001"] ≠ ([] : List String)) ∧ (["b", "a"] ≠ ([] : List String)) ∧
    ((getCacheKey "acs_cache_v1.0_" "10001" ["b", "a"]).2.Pairwise fun a b => a ≤ b) ∧
    List.Perm (getCacheKey "acs_cache_v1.0_" "10001" ["b", "a"]).2 ["b", "a"] ∧
    fetchVarsAfterCacheCheck "acs_cache_v1.0_" ["10001"] ["b", "a"] =
      some (sortLex ["b", "a"]) := by
  have h := getCacheKey_mutates_variables "acs_cache_v1.0_" "10001" ["b", "a"] ["10001"]
  exact ⟨by simp, by simp, h.1, h.2.1, h.2.2 (by simp) (by simp)⟩

/-- Helper: the radius results sort leaves the hits ordered ascending by
attached distance. -/
theorem sortHits_pairwise (l : List RadiusHit) :
    (sortHits l).Pairwise (fun a b => a.distance ≤ b.distance) := by
  have h := @List.sorted_mergeSort RadiusHit (fun a b => decide (a.distance ≤ b.distance))
    (fun a b c hab hbc => by
      simp only [decide_eq_true_eq] at *
      exact le_trans hab hbc)
    (fun a b => by
      simp only [Bool.or_eq_true, decide_eq_true_eq]
      exact le_total a.distance b.distance)
    l
  exact h.imp (fun hab => by simpa using hab)

/-- Helper: a successful association-list lookup locates its pair. -/
theorem mapGet_mem {κ ν : Type} [DecidableEq κ] (k : κ) :
    ∀ (m : List (κ × ν)) (v : ν), mapGet k m = some v → (k, v) ∈ m := by
  intro m
  induction m with
  | nil => intro v h; simp [mapGet] at h
  | cons kv rest ih =>
    intro v h
    simp only [mapGet] at h
    split at h
    · next heq =>
      rw [Option.some.injEq] at h
      subst h
      have hkv : (k, kv.2) = kv := by
        rw [← heq]
      rw [hkv]
      exact List.mem_cons_self kv rest
    · next heq => exact List.mem_cons_of_mem _ (ih v h)

/-- Helper: the stubs of any grid cell are among the stubs of the
spatial index. -/
theorem cellStubs_subset (idx : ZIPIndex) (g : Int × Int) :
    ∀ s ∈ (mapGet g idx.spatial).getD [], s ∈ allStubs idx := by
  intro s hs
  cases hget : mapGet g idx.spatial with
  | none => rw [hget] at hs; simp at hs
  | some l =>
    rw [hget] at hs
    simp only [Option.getD_some] at hs
    have hpair := mapGet_mem g idx.spatial l hget
    simp only [allStubs, List.mem_flatten]
    exact ⟨l, List.mem_map_of_mem Prod.snd hpair, hs⟩

/-- Helper: every early return of the stub scan is a sorted list of
accumulated hits. -/
theorem scanStubs_inl_sortHits (idx : ZIPIndex) (cfg : ScanCfg) :
    ∀ (ss : List Stub) (acc out : List RadiusHit),
      scanStubs idx cfg ss acc = Sum.inl out → ∃ acc2, out = sortHits acc2 := by
  intro ss
  induction ss with
  | nil => intro acc out h; simp [scanStubs] at h
  | cons s rest ih =>
    intro acc out h
    simp only [scanStubs] at h
    by_cases hbb : cfg.minLat ≤ s.lat ∧ s.lat ≤ cfg.maxLat ∧
        cfg.minLng ≤ s.lng ∧ s.lng ≤ cfg.maxLng
    · rw [if_pos hbb] at h
      by_cases hd : cfg.dist cfg.lat cfg.lng s.lat s.lng ≤ cfg.radiusKm
      · rw [if_pos hd] at h
        cases hget : idx.get s.zip with
        | some r0 =>
          simp only [hget] at h
          by_cases hlim : cfg.limit ≤
              (acc ++ [(⟨r0, cfg.dist cfg.lat cfg.lng s.lat s.lng⟩ : RadiusHit)]).length
          · rw [if_pos hlim] at h
            exact ⟨_, (Sum.inl.inj h).symm⟩
          · rw [if_neg hlim] at h
            exact ih _ out h
        | none =>
          simp only [hget] at h
          by_cases hlim : cfg.limit ≤ acc.length
          · rw [if_pos hlim] at h
            exact ⟨_, (Sum.inl.inj h).symm⟩
          · rw [if_neg hlim] at h
            exact ih _ out h
      · rw [if_neg hd] at h
        exact ih _ out h
    · rw [if_neg hbb] at h
      exact ih _ out h

/-- Helper: the cell scan always returns a distance-sorted list,
whether it finished the scan or returned early at the limit. -/
theorem scanCells_pairwise (idx : ZIPIndex) (cfg : ScanCfg) :
    ∀ (gs : List (Int × Int)) (acc : List RadiusHit),
      (scanCells idx cfg gs acc).Pairwise (fun a b => a.distance ≤ b.distance) := by
  intro gs
  induction gs with
  | nil => intro acc; exact sortHits_pairwise acc
  | cons g gs ih =>
    intro acc
    simp only [scanCells]
    cases hscan : scanStubs idx cfg ((mapGet g idx.spatial).getD []) acc with
    | inl done =>
      obtain ⟨acc2, hdone⟩ := scanStubs_inl_sortHits idx cfg _ _ _ hscan
      rw [hdone]
      exact sortHits_pairwise acc2
    | inr acc2 => exact ih acc2

/-- C9: the result of searchByRadius is sorted ascending by the attached
distance on both return paths, the early return at the limit included,
since both paths apply the distance sort. -/
theorem searchRadius_sorted_both_paths (idx : ZIPIndex)
    (dist : Rat → Rat → Rat → Rat → Rat) (cosd : Rat → Rat)
    (lat lng radiusKm : Rat) (limit : Nat) :
    (searchByRadius idx dist cosd lat lng radiusKm limit).Pairwise
      (fun a b => a.distance ≤ b.distance) := by
  simp only [searchByRadius]
  exact scanCells_pairwise idx _ _ []

/-- Helper: the stub scan only accumulates hits that passed the radius
test, with the distance computed at an indexed stub whose record lookup
produced the returned record. -/
theorem scanStubs_sound (idx : ZIPIndex) (cfg : ScanCfg) :
    ∀ (ss : List Stub) (acc : List RadiusHit),
      (∀ s ∈ ss, s ∈ allStubs idx) →
      (∀ h ∈ acc, HitOk idx cfg h) →
      ∀ h ∈ scanOut (scanStubs idx cfg ss acc), HitOk idx cfg h := by
  intro ss
  induction ss with
  | nil =>
    intro acc _ hacc h hmem
    simp only [scanStubs, scanOut] at hmem
    exact hacc h hmem
  | cons s rest ih =>
    intro acc hss hacc h hmem
    have hsub : ∀ t ∈ rest, t ∈ allStubs idx :=
      fun t ht => hss t (List.mem_cons_of_mem s ht)
    have hsmem : s ∈ allStubs idx := hss s (List.mem_cons_self s rest)
    simp only [scanStubs] at hmem
    by_cases hbb : cfg.minLat ≤ s.lat ∧ s.lat ≤ cfg.maxLat ∧
        cfg.minLng ≤ s.lng ∧ s.lng ≤ cfg.maxLng
    · rw [if_pos hbb] at hmem
      by_cases hd : cfg.dist cfg.lat cfg.lng s.lat s.lng ≤ cfg.radiusKm
      · rw [if_pos hd] at hmem
        cases hget : idx.get s.zip with
        | some r0 =>
          simp only [hget] at hmem
          have hacc2 : ∀ h2 ∈ acc ++
              [(⟨r0, cfg.dist cfg.lat cfg.lng s.lat s.lng⟩ : RadiusHit)],
              HitOk idx cfg h2 := by
            intro h2 hh2
            rcases List.mem_append.mp hh2 with h3 | h3
            · exact hacc h2 h3
            · have h4 : h2 = ⟨r0, cfg.dist cfg.lat cfg.lng s.lat s.lng⟩ := by
                simpa using h3
              subst h4
              exact ⟨hd, s, hsmem, rfl, hget⟩
          by_cases hlim : cfg.limit ≤
              (acc ++ [(⟨r0, cfg.dist cfg.lat cfg.lng s.lat s.lng⟩ : RadiusHit)]).length
          · rw [if_pos hlim] at hmem
            simp only [scanOut, sortHits] at hmem
            exact hacc2 h (List.mem_mergeSort.mp hmem)
          · rw [if_neg hlim] at hmem
            exact ih _ hsub hacc2 h hmem
        | none =>
          simp only [hget] at hmem
          by_cases hlim : cfg.limit ≤ acc.length
          · rw [if_pos hlim] at hmem
            simp only [scanOut, sortHits] at hmem
            exact hacc h (List.mem_mergeSort.mp hmem)
          · rw [if_neg hlim] at hmem
            exact ih _ hsub hacc h hmem
      · rw [if_neg hd] at hmem
        exact ih _ hsub hacc h hmem
    · rw [if_neg hbb] at hmem
      exact ih _ hsub hacc h hmem

/-- Helper: soundness carried through the cell scan. -/
theorem scanCells_sound (idx : ZIPIndex) (cfg : ScanCfg) :
    ∀ (gs : List (Int × Int)) (acc : List RadiusHit),
      (∀ h ∈ acc, HitOk idx cfg h) →
      ∀ h ∈ scanCells idx cfg gs acc, HitOk idx cfg h := by
  intro gs
  induction gs with
  | nil =>
    intro acc hacc h hmem
    simp only [scanCells, sortHits] at hmem
    exact hacc h (List.mem_mergeSort.mp hmem)
  | cons g gs ih =>
    intro acc hacc h hmem
    simp only [scanCells] at hmem
    cases hscan : scanStubs idx cfg ((mapGet g idx.spatial).getD []) acc with
    | inl done =>
      rw [hscan] at hmem
      have := scanStubs_sound idx cfg _ acc (cellStubs_subset idx g) hacc h
      rw [hscan] at this
      exact this hmem
    | inr acc2 =>
      rw [hscan] at hmem
      have hacc2 := fun h2 hh2 =>
        scanStubs_sound idx cfg _ acc (cellStubs_subset idx g) hacc h2
          (by rw [hscan]; exact hh2)
      exact ih acc2 hacc2 h hmem

/-- C5: no record returned by searchByRadius lies farther than the query
radius under the scan's distance computation: every returned hit carries
the distance the scan computed for one of the indexed stubs, that
distance is at most the radius, the hit's record is that stub's lookup
result, and for radius 0 (with a distance function that, like the
Haversine distance, is nonnegative and vanishes only at the query
point) only stubs coincident with the query point are returned.  The
floating-point Haversine block and Math.cos are abstracted as the
`dist` and `cosd` parameters. -/
theorem searchRadius_distance_bound (idx : ZIPIndex)
    (dist : Rat → Rat → Rat → Rat → Rat) (cosd : Rat → Rat)
    (lat lng radiusKm : Rat) (limit : Nat) (h : RadiusHit)
    (hmem : h ∈ searchByRadius idx dist cosd lat lng radiusKm limit) :
    h.distance ≤ radiusKm ∧
    ∃ s ∈ allStubs idx, h.distance = dist lat lng s.lat s.lng ∧
      idx.get s.zip = some h.record ∧
      (radiusKm = 0 → (∀ x y : Rat, 0 ≤ dist lat lng x y) →
        (∀ x y : Rat, dist lat lng x y = 0 → x = lat ∧ y = lng) →
        s.lat = lat ∧ s.lng = lng) := by
  simp only [searchByRadius] at hmem
  obtain ⟨hdle, s, hsmem, hdeq, hget⟩ :=
    scanCells_sound idx _ _ [] (by intro h2 hh2; simp at hh2) h hmem
  have hdle2 : h.distance ≤ radiusKm := hdle
  have hdeq2 : h.distance = dist lat lng s.lat s.lng := hdeq
  refine ⟨hdle2, s, hsmem, hdeq2, hget, ?_⟩
  intro hr0 hd0 hcoin
  apply hcoin
  have h1 : (0 : Rat) ≤ dist lat lng s.lat s.lng := hd0 s.lat s.lng
  have h2 : dist lat lng s.lat s.lng ≤ 0 := by
    rw [← hdeq2]
    rw [hr0] at hdle2
    exact hdle2
  linarith

/-- Helper: concrete evaluation of the radius search on the demo index
with a large limit. -/
theorem demoSearch_eval :
    searchByRadius demoIndex absDist (fun _ => 1) 0 0 0 10 = [⟨demoRecord, 0⟩] := by
  simp [searchByRadius, scanCells, scanStubs, sortHits, demoIndex, demoStub,
    demoRecord, absDist, intRange, mapGet, ZIPIndex.get, padStart5, List.mergeSort]

/-- Witness for C5 at a concrete input: a radius-0 query at the origin
of the demo index returns the origin record, whose stub coincides with
the query point. -/
theorem searchRadius_distance_bound_witness :
    ((⟨demoRecord, 0⟩ : RadiusHit).distance ≤ (0 : Rat)) ∧
    (∃ s ∈ allStubs demoIndex,
      (⟨demoRecord, 0⟩ : RadiusHit).distance = absDist 0 0 s.lat s.lng ∧
      demoIndex.get s.zip = some (⟨demoRecord, 0⟩ : RadiusHit).record ∧
      ((0 : Rat) = 0 → (∀ x y : Rat, 0 ≤ absDist 0 0 x y) →
        (∀ x y : Rat, absDist 0 0 x y = 0 → x = 0 ∧ y = 0) →
        s.lat = 0 ∧ s.lng = 0)) := by
  have h := searchRadius_distance_bound demoIndex absDist (fun _ => 1) 0 0 0 10
    ⟨demoRecord, 0⟩ (by rw [demoSearch_eval]; simp)
  exact h

/-- Helper: a stub scan in which no stub passes the radius test pushes
nothing and never takes the early return. -/
theorem scanStubs_nomatch (idx : ZIPIndex) (cfg : ScanCfg) :
    ∀ (ss : List Stub) (acc : List RadiusHit),
      (∀ s ∈ ss, ¬ cfg.dist cfg.lat cfg.lng s.lat s.lng ≤ cfg.radiusKm) →
      scanStubs idx cfg ss acc = Sum.inr acc := by
  intro ss
  induction ss with
  | nil => intro acc _; rfl
  | cons s rest ih =>
    intro acc hno
    have hrest : ∀ t ∈ rest, ¬ cfg.dist cfg.lat cfg.lng t.lat t.lng ≤ cfg.radiusKm :=
      fun t ht => hno t (List.mem_cons_of_mem s ht)
    simp only [scanStubs]
    by_cases hbb : cfg.minLat ≤ s.lat ∧ s.lat ≤ cfg.maxLat ∧
        cfg.minLng ≤ s.lng ∧ s.lng ≤ cfg.maxLng
    · rw [if_pos hbb, if_neg (hno s (List.mem_cons_self s rest))]
      exact ih acc hrest
    · rw [if_neg hbb]
      exact ih acc hrest

/-- Helper: with no stub inside the radius the whole cell scan returns
the empty sequence. -/
theorem scanCells_nomatch (idx : ZIPIndex) (cfg : ScanCfg)
    (hno : ∀ s ∈ allStubs idx, ¬ cfg.dist cfg.lat cfg.lng s.lat s.lng ≤ cfg.radiusKm) :
    ∀ gs : List (Int × Int), scanCells idx cfg gs [] = [] := by
  intro gs
  induction gs with
  | nil => simp [scanCells, sortHits]
  | cons g gs ih =>
    have hcell := scanStubs_nomatch idx cfg ((mapGet g idx.spatial).getD []) []
      (fun t ht => hno t (cellStubs_subset idx g t ht))
    simp only [scanCells, hcell]
    exact ih

/-- Helper: the stub scan adds at most one hit per stub and returns
early exactly when the limit is reached, so it keeps the accumulator
strictly below the limit or early-returns at most the limit. -/
theorem scanStubs_length (idx : ZIPIndex) (cfg : ScanCfg) :
    ∀ (ss : List Stub) (acc : List RadiusHit), acc.length < cfg.limit →
      (∀ out, scanStubs idx cfg ss acc = Sum.inl out → out.length ≤ cfg.limit) ∧
      (∀ acc2, scanStubs idx cfg ss acc = Sum.inr acc2 → acc2.length < cfg.limit) := by
  intro ss
  induction ss with
  | nil =>
    intro acc hlt
    constructor
    · intro out h; simp [scanStubs] at h
    · intro acc2 h
      simp only [scanStubs, Sum.inr.injEq] at h
      rw [← h]
      exact hlt
  | cons s rest ih =>
    intro acc hlt
    simp only [scanStubs]
    by_cases hbb : cfg.minLat ≤ s.lat ∧ s.lat ≤ cfg.maxLat ∧
        cfg.minLng ≤ s.lng ∧ s.lng ≤ cfg.maxLng
    · rw [if_pos hbb]
      by_cases hd : cfg.dist cfg.lat cfg.lng s.lat s.lng ≤ cfg.radiusKm
      · rw [if_pos hd]
        cases hget : idx.get s.zip with
        | some r0 =>
          simp only [hget]
          by_cases hlim : cfg.limit ≤
              (acc ++ [(⟨r0, cfg.dist cfg.lat cfg.lng s.lat s.lng⟩ : RadiusHit)]).length
          · rw [if_pos hlim]
            constructor
            · intro out h
              have hout := Sum.inl.inj h
              rw [← hout]
              simp only [sortHits, List.length_mergeSort, List.length_append,
                List.length_cons, List.length_nil]
              omega
            · intro acc2 h
              exact Sum.noConfusion h
          · rw [if_neg hlim]
            exact ih _ (by omega)
        | none =>
          simp only [hget]
          by_cases hlim : cfg.limit ≤ acc.length
          · exact absurd hlim (by omega)
          · rw [if_neg hlim]
            exact ih _ hlt
      · rw [if_neg hd]
        exact ih _ hlt
    · rw [if_neg hbb]
      exact ih _ hlt

/-- Helper: starting strictly below the limit, the cell scan returns at
most the limit. -/
theorem scanCells_length (idx : ZIPIndex) (cfg : ScanCfg) :
    ∀ (gs : List (Int × Int)) (acc : List RadiusHit), acc.length < cfg.limit →
      (scanCells idx cfg gs acc).length ≤ cfg.limit := by
  intro gs
  induction gs with
  | nil =>
    intro acc hlt
    simp only [scanCells, sortHits, List.length_mergeSort]
    omega
  | cons g gs ih =>
    intro acc hlt
    simp only [scanCells]
    cases hscan : scanStubs idx cfg ((mapGet g idx.spatial).getD []) acc with
    | inl done => exact (scanStubs_length idx cfg _ acc hlt).1 done hscan
    | inr acc2 => exact ih acc2 ((scanStubs_length idx cfg _ acc hlt).2 acc2 hscan)

/-- Helper: once the limit fired while scanning a prefix of the cells,
appending further cells cannot change the result — the remaining cells
are never scanned. -/
theorem scanCells_early_append (idx : ZIPIndex) (cfg : ScanCfg) :
    ∀ (gs1 gs2 : List (Int × Int)) (acc : List RadiusHit),
      acc.length < cfg.limit →
      cfg.limit ≤ (scanCells idx cfg gs1 acc).length →
      scanCells idx cfg (gs1 ++ gs2) acc = scanCells idx cfg gs1 acc := by
  intro gs1
  induction gs1 with
  | nil =>
    intro gs2 acc hlt hge
    exfalso
    simp only [scanCells, sortHits, List.length_mergeSort] at hge
    omega
  | cons g gs1 ih =>
    intro gs2 acc hlt hge
    simp only [List.cons_append, scanCells] at hge ⊢
    cases hscan : scanStubs idx cfg ((mapGet g idx.spatial).getD []) acc with
    | inl done => rfl
    | inr acc2 =>
      rw [hscan] at hge
      exact ih gs2 acc2 ((scanStubs_length idx cfg _ acc hlt).2 acc2 hscan) hge

/-- C8 (amended): for limit >= 1, searchByRadius returns at most limit
matches (for limit 0 the push-then-check pattern still returns the first
match); it returns the empty sequence when no indexed stub lies within
the radius; and once the limit has been reached while scanning a prefix
of the candidate cells, the remaining cells are not scanned — appending
them leaves the result unchanged. -/
theorem searchRadius_limit_behavior (idx : ZIPIndex)
    (dist : Rat → Rat → Rat → Rat → Rat) (cosd : Rat → Rat)
    (lat lng radiusKm : Rat) (limit : Nat)
    (cfg : ScanCfg) (gs1 gs2 : List (Int × Int)) (acc : List RadiusHit) :
    (1 ≤ limit → (searchByRadius idx dist cosd lat lng radiusKm limit).length ≤ limit) ∧
    ((∀ s ∈ allStubs idx, ¬ dist lat lng s.lat s.lng ≤ radiusKm) →
      searchByRadius idx dist cosd lat lng radiusKm limit = []) ∧
    (acc.length < cfg.limit →
      cfg.limit ≤ (scanCells idx cfg gs1 acc).length →
      scanCells idx cfg (gs1 ++ gs2) acc = scanCells idx cfg gs1 acc) := by
  refine ⟨?_, ?_, ?_⟩
  · intro hlim
    simp only [searchByRadius]
    exact scanCells_length idx _ _ [] (by simpa using hlim)
  · intro hno
    simp only [searchByRadius]
    exact scanCells_nomatch idx _ hno _
  · exact scanCells_early_append idx cfg gs1 gs2 acc

/-- Helper: concrete evaluation of a one-cell scan that reaches its
limit of 1 on the demo index. -/
theorem demoScan_eval :
    scanCells demoIndex ⟨absDist, 0, 0, 0, 1, 0, 0, 0, 0⟩ [(0, 0)] [] =
      [⟨demoRecord, 0⟩] := by
  simp [scanCells, scanStubs, sortHits, demoIndex, demoStub, demoRecord, absDist,
    mapGet, ZIPIndex.get, padStart5, List.mergeSort]

/-- Witness for C8 at concrete inputs: with limit 1 the demo query
returns at most one hit; with a negative radius it returns the empty
sequence; and appending a second candidate cell after the limit fired
in the first cell leaves the scan result unchanged. -/
theorem searchRadius_limit_behavior_witness :
    ((searchByRadius demoIndex absDist (fun _ => 1) 0 0 0 1).length ≤ 1) ∧
    (searchByRadius demoIndex absDist (fun _ => 1) 0 0 (-1) 5 = []) ∧
    (scanCells demoIndex ⟨absDist, 0, 0, 0, 1, 0, 0, 0, 0⟩ ([(0, 0)] ++ [(9, 9)]) [] =
      scanCells demoIndex ⟨absDist, 0, 0, 0, 1, 0, 0, 0, 0⟩ [(0, 0)] []) := by
  refine ⟨?_, ?_, ?_⟩
  · exact (searchRadius_limit_behavior demoIndex absDist (fun _ => 1) 0 0 0 1
      ⟨absDist, 0, 0, 0, 1, 0, 0, 0, 0⟩ [(0, 0)] [(9, 9)] []).1 (by omega)
  · refine (searchRadius_limit_behavior demoIndex absDist (fun _ => 1) 0 0 (-1) 5
      ⟨absDist, 0, 0, 0, 1, 0, 0, 0, 0⟩ [(0, 0)] [(9, 9)] []).2.1 ?_
    intro s hs
    simp only [allStubs, demoIndex, List.map_cons, List.map_nil, List.flatten,
      List.append_nil, List.mem_cons, List.not_mem_nil, or_false] at hs
    rw [hs]
    simp [absDist, demoStub]
  · refine (searchRadius_limit_behavior demoIndex absDist (fun _ => 1) 0 0 0 5
      ⟨absDist, 0, 0, 0, 1, 0, 0, 0, 0⟩ [(0, 0)] [(9, 9)] []).2.2 (by decide) ?_
    rw [demoScan_eval]
    decide

/-- C8 counterexample: with limit 0, the push-then-check loop of
searchByRadius still pushes the first in-radius record and only then
compares the length against the limit, returning one match — more than
the requested limit of 0. -/
theorem searchRadius_limit_zero_counterexample :
    searchByRadius demoIndex absDist (fun _ => 1) 0 0 0 0 = [⟨demoRecord, 0⟩] ∧
    ¬ ((1 : Nat) ≤ 0) := by
  constructor
  · simp [searchByRadius, scanCells, scanStubs, sortHits, demoIndex, demoStub,
      demoRecord, absDist, intRange, mapGet, ZIPIndex.get, padStart5, List.mergeSort]
  · decide

end CensusMap



